import Mathlib

/-!
Verification of the AAVQE example (`examples/aavqe/main.py`).

The source builds multi-qubit operators as numpy arrays via Kronecker
products of the single-qubit identity, Pauli-Z and Pauli-X matrices,
assembles a reference Hamiltonian (`sz_hamiltonian`) and a transverse-field
Ising Hamiltonian (`ising`), and runs an adiabatic schedule (`AAVQE`) that
interpolates between the two and re-optimises a variational circuit at each
step, warm-starting each optimisation from the previous step's result.

All matrices appearing in the example have real (indeed integer or
rational-linear) entries, so matrices are embedded as square arrays of
rationals: a dimension together with an entry function.  Floating-point
arithmetic is idealised as exact rational arithmetic.  The optimizer
(`VQE.minimize`) and the circuit simulator live outside the example's
source and are treated as an abstract collaborator, as the specification
itself does.
-/

/-- A square matrix: a dimension and an entry function.  Entries at indices
outside `[0, dim)` are irrelevant; equality of operators is read through
`MatEq` below, which only inspects in-range entries.  This mirrors a square
2-d numpy array. -/
structure Mat where
  dim : ℕ
  entry : ℕ → ℕ → ℚ

/-- The 1×1 scalar `1`, the start value `h = 1` of `multikron`'s loop
(`np.kron(1, m) = m`). -/
def matOne : Mat :=
  ⟨1, fun _ _ => 1⟩

/-- `np.kron` on square matrices: block structure
`(A ⊗ B)[i, j] = A[i / dB, j / dB] * B[i % dB, j % dB]`. -/
def kron (A B : Mat) : Mat :=
  ⟨A.dim * B.dim, fun i j =>
    A.entry (i / B.dim) (j / B.dim) * B.entry (i % B.dim) (j % B.dim)⟩

/-- `multikron(matrices)` from the source: `h = 1; for m in matrices:
h = np.kron(h, m); return h` — a left fold of the Kronecker product
starting from the 1×1 scalar `1`. -/
def multikron (ms : List Mat) : Mat :=
  ms.foldl kron matOne

/-- Elementwise sum of two equally-shaped arrays (numpy `+`). -/
def matAdd (A B : Mat) : Mat :=
  ⟨A.dim, fun i j => A.entry i j + B.entry i j⟩

/-- Elementwise negation (numpy unary `-`). -/
def matNeg (A : Mat) : Mat :=
  ⟨A.dim, fun i j => - A.entry i j⟩

/-- Scalar multiple of an array (numpy scalar `*`). -/
def matSMul (c : ℚ) (A : Mat) : Mat :=
  ⟨A.dim, fun i j => c * A.entry i j⟩

/-- Python `sum(...)` over a generator of equally-shaped arrays: starts at
the integer `0`, which broadcasts over the first array, so a non-empty list
folds `matAdd` from its head.  (The empty case yields the scalar `0`;
the example only ever sums non-empty generators.) -/
def matSum (l : List Mat) : Mat :=
  match l with
  | [] => ⟨1, fun _ _ => 0⟩
  | A :: t => t.foldl matAdd A

/-- Modelled from the spec: the single-qubit identity matrix provided by the
framework's `matrices` module (`matrices.I`), which is not under `src/`;
the spec fixes it as the 2×2 identity. -/
def matI : Mat :=
  ⟨2, fun i j => if i = 0 ∧ j = 0 then 1 else if i = 1 ∧ j = 1 then 1 else 0⟩

/-- Modelled from the spec: the Pauli-Z matrix provided by the framework's
`matrices` module (`matrices.Z`), not under `src/`; the spec fixes it as the
standard Pauli-Z. -/
def matZ : Mat :=
  ⟨2, fun i j => if i = 0 ∧ j = 0 then 1 else if i = 1 ∧ j = 1 then -1 else 0⟩

/-- Modelled from the spec: the Pauli-X matrix provided by the framework's
`matrices` module (`matrices.X`), not under `src/`; the spec fixes it as the
standard Pauli-X. -/
def matX : Mat :=
  ⟨2, fun i j => if i = 0 ∧ j = 1 then 1 else if i = 1 ∧ j = 0 then 1 else 0⟩

/-- Operator equality: same dimension and the same entries at every in-range
index (numpy elementwise equality of equally-shaped arrays). -/
def MatEq (A B : Mat) : Prop :=
  A.dim = B.dim ∧ ∀ i < A.dim, ∀ j < A.dim, A.entry i j = B.entry i j

instance (A B : Mat) : Decidable (MatEq A B) := by
  unfold MatEq; infer_instance

/-- The summand of `sz_hamiltonian`:
`multikron(sz if i == j % nqubits else eye for j in range(nqubits))`. -/
def szTerm (n i : ℕ) : Mat :=
  multikron ((List.range n).map (fun j => if i = j % n then matZ else matI))

/-- `sz_hamiltonian(nqubits)` from the source: the matrix
`- sum(multikron(sz if i == j % nqubits else eye for j in range(nqubits))
for i in range(nqubits))` assigned to the returned Hamiltonian object. -/
def sz_hamiltonian (n : ℕ) : Mat :=
  matNeg (matSum ((List.range n).map (szTerm n)))

/-- The coupling summand of `ising`:
`multikron(sz if i in \x7bj % n, (j+1) % n\x7d else eye for j in range(n))`. -/
def isingZTerm (n i : ℕ) : Mat :=
  multikron ((List.range n).map (fun j =>
    if i = j % n ∨ i = (j + 1) % n then matZ else matI))

/-- The field summand of `ising`:
`multikron(sx if i == j % n else eye for j in range(n))`. -/
def isingXTerm (n i : ℕ) : Mat :=
  multikron ((List.range n).map (fun j => if i = j % n then matX else matI))

/-- `ising(nqubits, lamb)` from the source: the coupling sum plus `lamb`
times the field sum (`ising.hamiltonian = sum(...)` followed by
`ising.hamiltonian += lamb * sum(...)`). -/
def ising (n : ℕ) (lamb : ℚ) : Mat :=
  matAdd
    (matSum ((List.range n).map (isingZTerm n)))
    (matSMul lamb (matSum ((List.range n).map (isingXTerm n))))

/-- The spec's term placing Pauli-Z at position `i` and identity elsewhere. -/
def refTermSpec (n i : ℕ) : Mat :=
  multikron ((List.range n).map (fun j => if j = i then matZ else matI))

/-- The spec's formula for the reference Hamiltonian: the negative sum, over
each qubit position `i` in `0..n-1`, of the tensor product placing Pauli-Z
at position `i` and identity elsewhere. -/
def referenceSpec (n : ℕ) : Mat :=
  matNeg (matSum ((List.range n).map (refTermSpec n)))

/-- The spec's term placing Pauli-Z at positions `i` and `(i+1) mod n` and
identity elsewhere. -/
def ringTermSpec (n i : ℕ) : Mat :=
  multikron ((List.range n).map (fun j =>
    if j = i ∨ j = (i + 1) % n then matZ else matI))

/-- The spec's ring-coupling term: the sum, over each qubit position `i`, of
the tensor product placing Pauli-Z at positions `i` and `(i+1) mod n` and
identity elsewhere. -/
def ringCouplingSpec (n : ℕ) : Mat :=
  matSum ((List.range n).map (ringTermSpec n))

/-- The spec's term placing Pauli-X at position `i` and identity elsewhere. -/
def fieldTermSpec (n i : ℕ) : Mat :=
  multikron ((List.range n).map (fun j => if j = i then matX else matI))

/-- The spec's transverse-field term: the sum, over each qubit position `i`,
of the tensor product placing Pauli-X at position `i` and identity
elsewhere. -/
def fieldSpec (n : ℕ) : Mat :=
  matSum ((List.range n).map (fieldTermSpec n))

/-- The spec's formula for the problem Hamiltonian: ring coupling plus
`lambda` times the transverse field. -/
def isingSpec (n : ℕ) (lamb : ℚ) : Mat :=
  matAdd (ringCouplingSpec n) (matSMul lamb (fieldSpec n))

/-- The interpolated Hamiltonian `(1-s)*easy_hamiltonian +
s*problem_hamiltonian` formed inside the scheduler loop; a fresh operator
built from scalar multiples and an elementwise sum. -/
def interpH (A B : Mat) (s : ℚ) : Mat :=
  matAdd (matSMul (1 - s) A) (matSMul s B)

/-- Diagonality on the in-range indices. -/
def IsDiag (A : Mat) : Prop :=
  ∀ i < A.dim, ∀ j < A.dim, i ≠ j → A.entry i j = 0

instance (A : Mat) : Decidable (IsDiag A) := by
  unfold IsDiag; infer_instance

/-- Hermitian: equal to its own conjugate transpose.  Every matrix the
example builds has real entries (real combinations of I, Z, X), so
conjugation is the identity and Hermitian means symmetric. -/
def IsHermitian (A : Mat) : Prop :=
  ∀ i < A.dim, ∀ j < A.dim, A.entry i j = A.entry j i

instance (A : Mat) : Decidable (IsHermitian A) := by
  unfold IsHermitian; infer_instance

/-- The Python exceptions the `AAVQE` function can raise: `t / T_max` with
`T_max = 0` raises `ZeroDivisionError`; `return energy, params` after a loop
that ran zero iterations raises `UnboundLocalError`. -/
inductive PyErr where
  | zeroDivision : PyErr
  | unboundLocal : PyErr
deriving DecidableEq

/-- A parameter vector, as supplied to and returned by the minimizer. -/
abbrev Params : Type := List ℚ

/-- Modelled from the spec: the external local-minimizer collaborator
(`models.VQE(circuit, hamiltonian).minimize(params, ...)`, whose code is not
under `src/`).  Per spec §6 it is a deterministic function of the
Hamiltonian and the starting parameter vector, returning a best energy and a
best parameter vector. -/
abbrev Minimizer : Type := Mat → Params → ℚ × Params

/-- One iteration of the `for t in range(T_max+1)` body of `AAVQE`, acting
on (the possibly-failed pair of) the last `(energy, params)` result — `none`
before any minimization has run — and the count of minimizer invocations so
far.  With `T_max = 0` the statement `s = t/T_max` raises
`ZeroDivisionError` before the minimizer is invoked; otherwise the step
forms `(1-s)*easy + s*problem`, minimizes from the current parameter vector
(the caller's `initial_parameters` before the first step, the previous
step's `params` afterwards), and rebinds `initial_parameters = params`. -/
def aavqeBody (f : Minimizer) (H0 H1 : Mat) (T : ℤ) (p0 : Params)
    (acc : Except PyErr (Option (ℚ × Params)) × ℕ) (t : ℕ) :
    Except PyErr (Option (ℚ × Params)) × ℕ :=
  match acc with
  | (Except.error e, c) => (Except.error e, c)
  | (Except.ok st, c) =>
    if T = 0 then (Except.error PyErr.zeroDivision, c)
    else
      let p := match st with
        | none => p0
        | some ep => ep.2
      (Except.ok (some (f (interpH H0 H1 ((t : ℚ) / (T : ℚ))) p)), c + 1)

/-- The `AAVQE` function of the source, instrumented with the number of
minimizer invocations: runs the loop `for t in range(T_max+1)` and then
executes `return energy, params`, which raises `UnboundLocalError` when the
loop ran zero iterations.  The returned pair is (the result or the raised
exception, how many times the minimizer ran). -/
def AAVQEgo (f : Minimizer) (H0 H1 : Mat) (T : ℤ) (p0 : Params) :
    Except PyErr (ℚ × Params) × ℕ :=
  match (List.range (T + 1).toNat).foldl (aavqeBody f H0 H1 T p0)
      (Except.ok none, 0) with
  | (Except.error e, c) => (Except.error e, c)
  | (Except.ok none, c) => (Except.error PyErr.unboundLocal, c)
  | (Except.ok (some ep), c) => (Except.ok ep, c)

/-- The warm-start chain of minimizer calls the spec describes: step `0`
minimizes from the caller-supplied vector at `s = 0/T`, and step `t+1`
minimizes from exactly the parameter vector returned by step `t`, at
`s = (t+1)/T`.  `stepOut t` is the `(energy, params)` pair returned by the
minimizer call of step `t`. -/
def stepOut (f : Minimizer) (H0 H1 : Mat) (T : ℤ) (p0 : Params) : ℕ → ℚ × Params
  | 0 => f (interpH H0 H1 ((0 : ℚ) / (T : ℚ))) p0
  | t + 1 => f (interpH H0 H1 (((t : ℚ) + 1) / (T : ℚ)))
      (stepOut f H0 H1 T p0 t).2

/-- The parameter vector passed into the minimization call of step `t`:
the caller's initial vector at step `0`, and afterwards the vector returned
by the previous step's call. -/
def paramsIn (f : Minimizer) (H0 H1 : Mat) (T : ℤ) (p0 : Params) : ℕ → Params
  | 0 => p0
  | t + 1 => (stepOut f H0 H1 T p0 t).2

/-- Whether a Python call returned normally rather than raising. -/
def exceptOk {α : Type} : Except PyErr α → Bool
  | Except.ok _ => true
  | Except.error _ => false

/-- Python `range(start, stop, 2)` over naturals (both uses in the source
have step `2` and `start ≥ 0`; a negative Python `stop` yields the empty
range, which truncated subtraction reproduces). -/
def range2 (start stop : ℕ) : List ℕ :=
  (List.range ((stop - start + 1) / 2)).map (fun k => start + 2 * k)

/-- The gate descriptors the circuit builder emits.  A
`variationalLayer qs ps a b` records the qubit list, the entangling pairs
and the lengths of its two rotation-angle vectors (`np.zeros(nqubits)`
twice in the source); `cz` and `ry` are single gates. -/
inductive Gate where
  | variationalLayer : List ℕ → List (ℕ × ℕ) → ℕ → ℕ → Gate
  | cz : ℕ → ℕ → Gate
  | ry : ℕ → Gate
deriving DecidableEq

/-- `pairs = list((i, i + 1) for i in range(0, nqubits - 1, 2))`. -/
def evenPairs (n : ℕ) : List (ℕ × ℕ) :=
  (range2 0 (n - 1)).map (fun i => (i, i + 1))

/-- The odd-offset entangler round
`(gates.CZ(i, i + 1) for i in range(1, nqubits - 2, 2))`. -/
def oddCZ (n : ℕ) : List Gate :=
  (range2 1 (n - 2)).map (fun i => Gate.cz i (i + 1))

/-- One iteration of the `for l in range(layers)` loop: a variational layer
with two length-`n` angle vectors, the odd-offset entangler round, and the
ring-closing `gates.CZ(0, nqubits - 1)`. -/
def layerBlock (n : ℕ) : List Gate :=
  Gate.variationalLayer (List.range n) (evenPairs n) n n :: (oddCZ n ++ [Gate.cz 0 (n - 1)])

/-- The gates added by the first `L` iterations of the layer loop. -/
def buildLayers (n : ℕ) : ℕ → List Gate
  | 0 => []
  | L + 1 => buildLayers n L ++ layerBlock n

/-- The full ansatz circuit of `AAVQE`: `L` layer blocks followed by the
closing rotation round `(gates.RY(i, theta=0) for i in range(nqubits))`. -/
def buildCircuit (n L : ℕ) : List Gate :=
  buildLayers n L ++ (List.range n).map Gate.ry

/-- Modelled from the spec: the number of trainable rotation parameters a
gate contributes (`qibo.gates` is not under `src/`).  Per spec §3/§4.3 each
variational layer's two angle vectors are trainable (`2n` slots), a
rotation gate contributes one trainable angle, and entangling `CZ` gates
are fixed and non-trainable. -/
def gateParams : Gate → ℕ
  | Gate.variationalLayer _ _ a b => a + b
  | Gate.cz _ _ => 0
  | Gate.ry _ => 1

/-- Total number of trainable parameter slots of a gate list. -/
def circuitParams (gs : List Gate) : ℕ :=
  (gs.map gateParams).sum

/-- The qubit indices a gate descriptor touches. -/
def gateQubits : Gate → List ℕ
  | Gate.variationalLayer qs ps _ _ => qs ++ ps.map Prod.fst ++ ps.map Prod.snd
  | Gate.cz a b => [a, b]
  | Gate.ry q => [q]

/-- `nparams = 2 * nqubits * layers + nqubits` from the `main` driver. -/
def mainNParams (n L : ℕ) : ℕ :=
  2 * n * L + n


section Lemmas

lemma matAdd_dim (A B : Mat) : (matAdd A B).dim = A.dim := rfl

lemma foldl_matAdd_dim (l : List Mat) :
    ∀ acc : Mat, (l.foldl matAdd acc).dim = acc.dim := by
  induction l with
  | nil => intro acc; rfl
  | cons A t ih => intro acc; simpa [List.foldl_cons] using ih (matAdd acc A)

lemma matSum_dim_of (l : List Mat) (d : ℕ) (hne : l ≠ [])
    (h : ∀ A ∈ l, A.dim = d) : (matSum l).dim = d := by
  cases l with
  | nil => exact absurd rfl hne
  | cons A t =>
    have : (matSum (A :: t)).dim = A.dim := foldl_matAdd_dim t A
    rw [this]
    exact h A (List.mem_cons_self A t)

lemma foldl_matAdd_entry (l : List Mat) :
    ∀ (acc : Mat) (i j : ℕ),
      (l.foldl matAdd acc).entry i j =
        acc.entry i j + (l.map (fun A => A.entry i j)).sum := by
  induction l with
  | nil => intro acc i j; simp
  | cons A t ih =>
    intro acc i j
    have := ih (matAdd acc A) i j
    simp only [List.foldl_cons, List.map_cons, List.sum_cons] at this ⊢
    rw [this]
    show acc.entry i j + A.entry i j + _ = _
    ring

lemma matSum_entry (A : Mat) (t : List Mat) (i j : ℕ) :
    (matSum (A :: t)).entry i j = ((A :: t).map (fun B => B.entry i j)).sum := by
  show (t.foldl matAdd A).entry i j = _
  rw [foldl_matAdd_entry]
  simp

lemma listsum_range (n : ℕ) (f : ℕ → ℚ) :
    ((List.range n).map f).sum = ∑ i ∈ Finset.range n, f i := by
  induction n with
  | zero => simp
  | succ m ih => rw [List.range_succ, Finset.sum_range_succ]; simp [ih]

/-- Entry formula of the sum of the `n` mapped terms, as a `Finset` sum. -/
lemma matSum_map_range_entry (n : ℕ) (T : ℕ → Mat) (i j : ℕ) (hn : 1 ≤ n) :
    (matSum ((List.range n).map T)).entry i j =
      ∑ k ∈ Finset.range n, (T k).entry i j := by
  obtain ⟨m, rfl⟩ : ∃ m, n = m + 1 := ⟨n - 1, by omega⟩
  have hcons : (List.range (m + 1)).map T = T 0 :: (List.range m).map (fun k => T (k + 1)) := by
    rw [List.range_succ_eq_map]
    simp [List.map_map, Function.comp]
  rw [hcons, matSum_entry, ← hcons, List.map_map, listsum_range]
  simp [Function.comp]

lemma foldl_kron_dim (ms : List Mat) :
    ∀ acc : Mat, (ms.foldl kron acc).dim = acc.dim * (ms.map Mat.dim).prod := by
  induction ms with
  | nil => intro acc; simp
  | cons m t ih =>
    intro acc
    simp only [List.foldl_cons, List.map_cons, List.prod_cons]
    rw [ih (kron acc m)]
    show acc.dim * m.dim * _ = _
    ring

lemma multikron_dim (ms : List Mat) :
    (multikron ms).dim = (ms.map Mat.dim).prod := by
  show (ms.foldl kron matOne).dim = _
  rw [foldl_kron_dim]
  simp [matOne]

lemma multikron_dim_two (ms : List Mat) (h : ∀ A ∈ ms, A.dim = 2) :
    (multikron ms).dim = 2 ^ ms.length := by
  rw [multikron_dim, List.prod_eq_pow_card (ms.map Mat.dim) 2]
  · simp
  · intro x hx
    obtain ⟨A, hA, rfl⟩ := List.mem_map.mp hx
    exact h A hA

lemma foldl_kron_entry00 (ms : List Mat) :
    ∀ acc : Mat, (ms.foldl kron acc).entry 0 0 =
      acc.entry 0 0 * (ms.map (fun m => m.entry 0 0)).prod := by
  induction ms with
  | nil => intro acc; simp
  | cons m t ih =>
    intro acc
    simp only [List.foldl_cons, List.map_cons, List.prod_cons]
    rw [ih (kron acc m)]
    show acc.entry (0 / m.dim) (0 / m.dim) * m.entry (0 % m.dim) (0 % m.dim) * _ = _
    simp [Nat.zero_div, Nat.zero_mod]
    ring

lemma multikron_entry00 (ms : List Mat) :
    (multikron ms).entry 0 0 = (ms.map (fun m => m.entry 0 0)).prod := by
  show (ms.foldl kron matOne).entry 0 0 = _
  rw [foldl_kron_entry00]
  simp [matOne]

/-- An invariant preserved by `kron` on positive-dimension matrices is
preserved by the `multikron` fold. -/
lemma foldl_kron_inv (P : Mat → Prop)
    (hP : ∀ A B, 0 < A.dim → 0 < B.dim → P A → P B → P (kron A B))
    (ms : List Mat) :
    ∀ acc : Mat, 0 < acc.dim → P acc → (∀ m ∈ ms, 0 < m.dim ∧ P m) →
      0 < (ms.foldl kron acc).dim ∧ P (ms.foldl kron acc) := by
  induction ms with
  | nil => intro acc h1 h2 _; exact ⟨h1, h2⟩
  | cons m t ih =>
    intro acc h1 h2 hall
    obtain ⟨hm1, hm2⟩ := hall m (List.mem_cons_self m t)
    have hk1 : 0 < (kron acc m).dim := Nat.mul_pos h1 hm1
    have hk2 : P (kron acc m) := hP acc m h1 hm1 h2 hm2
    exact ih (kron acc m) hk1 hk2 (fun x hx => hall x (List.mem_cons_of_mem m hx))

lemma IsDiag_kron (A B : Mat) (_ : 0 < A.dim) (hB : 0 < B.dim)
    (hA : IsDiag A) (hBd : IsDiag B) : IsDiag (kron A B) := by
  intro i hi j hj hij
  have hi2 : i < A.dim * B.dim := hi
  have hj2 : j < A.dim * B.dim := hj
  have hdivi : i / B.dim < A.dim := (Nat.div_lt_iff_lt_mul hB).mpr hi2
  have hdivj : j / B.dim < A.dim := (Nat.div_lt_iff_lt_mul hB).mpr hj2
  show A.entry (i / B.dim) (j / B.dim) * B.entry (i % B.dim) (j % B.dim) = 0
  by_cases hd : i / B.dim = j / B.dim
  · have hm : i % B.dim ≠ j % B.dim := by
      intro hmm
      apply hij
      have e1 := Nat.div_add_mod i B.dim
      have e2 := Nat.div_add_mod j B.dim
      rw [hd, hmm] at e1
      omega
    rw [hBd (i % B.dim) (Nat.mod_lt _ hB) (j % B.dim) (Nat.mod_lt _ hB) hm]
    ring
  · rw [hA (i / B.dim) hdivi (j / B.dim) hdivj hd]
    ring

end Lemmas

section MoreLemmas

lemma MatEq_of_eq (A B : Mat) (h : A = B) : MatEq A B := by
  subst h
  exact ⟨rfl, fun i _ j _ => rfl⟩

lemma IsHermitian_kron (A B : Mat) (_ : 0 < A.dim) (hB0 : 0 < B.dim)
    (hA : IsHermitian A) (hB : IsHermitian B) : IsHermitian (kron A B) := by
  intro i hi j hj
  have hi2 : i < A.dim * B.dim := hi
  have hj2 : j < A.dim * B.dim := hj
  have hdivi : i / B.dim < A.dim := (Nat.div_lt_iff_lt_mul hB0).mpr hi2
  have hdivj : j / B.dim < A.dim := (Nat.div_lt_iff_lt_mul hB0).mpr hj2
  show A.entry (i / B.dim) (j / B.dim) * B.entry (i % B.dim) (j % B.dim) =
    A.entry (j / B.dim) (i / B.dim) * B.entry (j % B.dim) (i % B.dim)
  rw [hA (i / B.dim) hdivi (j / B.dim) hdivj,
    hB (i % B.dim) (Nat.mod_lt _ hB0) (j % B.dim) (Nat.mod_lt _ hB0)]

/-- Diagonal entries all equal to `1` or `-1`. -/
def DiagPM (A : Mat) : Prop :=
  ∀ k < A.dim, A.entry k k = 1 ∨ A.entry k k = -1

instance (A : Mat) : Decidable (DiagPM A) := by
  unfold DiagPM; infer_instance

lemma DiagPM_kron (A B : Mat) (_ : 0 < A.dim) (hB0 : 0 < B.dim)
    (hA : DiagPM A) (hB : DiagPM B) : DiagPM (kron A B) := by
  intro k hk
  have hk2 : k < A.dim * B.dim := hk
  have hdiv : k / B.dim < A.dim := (Nat.div_lt_iff_lt_mul hB0).mpr hk2
  have hmod : k % B.dim < B.dim := Nat.mod_lt _ hB0
  show A.entry (k / B.dim) (k / B.dim) * B.entry (k % B.dim) (k % B.dim) = 1 ∨
    A.entry (k / B.dim) (k / B.dim) * B.entry (k % B.dim) (k % B.dim) = -1
  rcases hA (k / B.dim) hdiv with h1 | h1 <;> rcases hB (k % B.dim) hmod with h2 | h2 <;>
    rw [h1, h2] <;> norm_num

lemma multikron_pos_dim (ms : List Mat) (h : ∀ m ∈ ms, 0 < m.dim) :
    0 < (multikron ms).dim := by
  have := foldl_kron_inv (fun _ => True) (fun _ _ _ _ _ _ => trivial) ms matOne
    (by simp [matOne]) trivial (fun m hm => ⟨h m hm, trivial⟩)
  exact this.1

lemma multikron_IsDiag (ms : List Mat) (h : ∀ m ∈ ms, 0 < m.dim ∧ IsDiag m) :
    IsDiag (multikron ms) := by
  have := foldl_kron_inv IsDiag IsDiag_kron ms matOne (by simp [matOne])
    (by intro i hi j hj hij; simp only [matOne] at hi hj; omega) h
  exact this.2

lemma multikron_IsHermitian (ms : List Mat) (h : ∀ m ∈ ms, 0 < m.dim ∧ IsHermitian m) :
    IsHermitian (multikron ms) := by
  have := foldl_kron_inv IsHermitian IsHermitian_kron ms matOne (by simp [matOne])
    (fun i _ j _ => rfl) h
  exact this.2

lemma multikron_DiagPM (ms : List Mat) (h : ∀ m ∈ ms, 0 < m.dim ∧ DiagPM m) :
    DiagPM (multikron ms) := by
  have := foldl_kron_inv DiagPM DiagPM_kron ms matOne (by simp [matOne])
    (by intro k hk; left; rfl) h
  exact this.2

lemma matI_dim : matI.dim = 2 := rfl

lemma matZ_dim : matZ.dim = 2 := rfl

lemma matX_dim : matX.dim = 2 := rfl

lemma matI_IsDiag : IsDiag matI := by decide

lemma matZ_IsDiag : IsDiag matZ := by decide

lemma matI_IsHermitian : IsHermitian matI := by decide

lemma matZ_IsHermitian : IsHermitian matZ := by decide

lemma matX_IsHermitian : IsHermitian matX := by decide

lemma matI_DiagPM : DiagPM matI := by decide

lemma matZ_DiagPM : DiagPM matZ := by decide

lemma ite_ZI_dim (c : Prop) [Decidable c] : (if c then matZ else matI).dim = 2 := by
  by_cases h : c <;> simp [h, matZ_dim, matI_dim]

lemma ite_XI_dim (c : Prop) [Decidable c] : (if c then matX else matI).dim = 2 := by
  by_cases h : c <;> simp [h, matX_dim, matI_dim]

/-- Bound used for the ground-energy claim: a list of rationals all at most
`1` sums to at most its length. -/
lemma list_sum_le_length (l : List ℚ) (h : ∀ x ∈ l, x ≤ 1) :
    l.sum ≤ (l.length : ℚ) := by
  induction l with
  | nil => simp
  | cons a t ih =>
    simp only [List.sum_cons, List.length_cons]
    have ha := h a (List.mem_cons_self a t)
    have ht := ih (fun x hx => h x (List.mem_cons_of_mem a hx))
    push_cast
    linarith

lemma shiftA (n i : ℕ) (hn : 1 ≤ n) (hi : i < n) :
    ((i + (n - 1)) % n + 1) % n = i := by
  by_cases h : i = 0
  · subst h
    rw [Nat.zero_add, Nat.mod_eq_of_lt (by omega : n - 1 < n)]
    have e : n - 1 + 1 = n := by omega
    rw [e, Nat.mod_self]
  · have e : i + (n - 1) = (i - 1) + 1 * n := by omega
    rw [e, Nat.add_mul_mod_self_right, Nat.mod_eq_of_lt (by omega : i - 1 < n)]
    have e2 : i - 1 + 1 = i := by omega
    rw [e2, Nat.mod_eq_of_lt hi]

lemma shiftB (n j : ℕ) (hn : 1 ≤ n) (hj : j < n) :
    ((j + 1) % n + (n - 1)) % n = j := by
  by_cases h : j + 1 = n
  · rw [h, Nat.mod_self, Nat.zero_add, Nat.mod_eq_of_lt (by omega : n - 1 < n)]
    omega
  · rw [Nat.mod_eq_of_lt (by omega : j + 1 < n)]
    have e : j + 1 + (n - 1) = j + 1 * n := by omega
    rw [e, Nat.add_mul_mod_self_right, Nat.mod_eq_of_lt hj]

end MoreLemmas

section HamiltonianLemmas

lemma mem_map_range_ZI (n : ℕ) (P : ℕ → Prop) [DecidablePred P] (A : Mat)
    (hA : A ∈ (List.range n).map (fun j => if P j then matZ else matI)) :
    A = matZ ∨ A = matI := by
  obtain ⟨j, _, rfl⟩ := List.mem_map.mp hA
  by_cases h : P j
  · left; simp [h]
  · right; simp [h]

lemma mem_map_range_XI (n : ℕ) (P : ℕ → Prop) [DecidablePred P] (A : Mat)
    (hA : A ∈ (List.range n).map (fun j => if P j then matX else matI)) :
    A = matX ∨ A = matI := by
  obtain ⟨j, _, rfl⟩ := List.mem_map.mp hA
  by_cases h : P j
  · left; simp [h]
  · right; simp [h]

lemma multikron_map_range_dim (n : ℕ) (f : ℕ → Mat) (h : ∀ j < n, (f j).dim = 2) :
    (multikron ((List.range n).map f)).dim = 2 ^ n := by
  rw [multikron_dim_two]
  · simp
  · intro A hA
    obtain ⟨j, hj, rfl⟩ := List.mem_map.mp hA
    exact h j (List.mem_range.mp hj)

lemma szTerm_dim (n i : ℕ) : (szTerm n i).dim = 2 ^ n :=
  multikron_map_range_dim n _ (fun _ _ => ite_ZI_dim _)

lemma isingZTerm_dim (n i : ℕ) : (isingZTerm n i).dim = 2 ^ n :=
  multikron_map_range_dim n _ (fun _ _ => ite_ZI_dim _)

lemma isingXTerm_dim (n i : ℕ) : (isingXTerm n i).dim = 2 ^ n :=
  multikron_map_range_dim n _ (fun _ _ => ite_XI_dim _)

lemma ringTermSpec_dim (n i : ℕ) : (ringTermSpec n i).dim = 2 ^ n :=
  multikron_map_range_dim n _ (fun _ _ => ite_ZI_dim _)

lemma szTerm_IsDiag (n i : ℕ) : IsDiag (szTerm n i) := by
  apply multikron_IsDiag
  intro m hm
  rcases mem_map_range_ZI n _ m hm with rfl | rfl
  · exact ⟨by norm_num [matZ_dim], matZ_IsDiag⟩
  · exact ⟨by norm_num [matI_dim], matI_IsDiag⟩

lemma szTerm_DiagPM (n i : ℕ) : DiagPM (szTerm n i) := by
  apply multikron_DiagPM
  intro m hm
  rcases mem_map_range_ZI n _ m hm with rfl | rfl
  · exact ⟨by norm_num [matZ_dim], matZ_DiagPM⟩
  · exact ⟨by norm_num [matI_dim], matI_DiagPM⟩

lemma szTerm_entry00 (n i : ℕ) : (szTerm n i).entry 0 0 = 1 := by
  unfold szTerm
  rw [multikron_entry00, List.map_map]
  apply List.prod_eq_one
  intro x hx
  obtain ⟨j, _, rfl⟩ := List.mem_map.mp hx
  by_cases h : i = j % n <;> simp [Function.comp, h, matZ, matI]

lemma szTerm_IsHermitian (n i : ℕ) : IsHermitian (szTerm n i) := by
  apply multikron_IsHermitian
  intro m hm
  rcases mem_map_range_ZI n _ m hm with rfl | rfl
  · exact ⟨by norm_num [matZ_dim], matZ_IsHermitian⟩
  · exact ⟨by norm_num [matI_dim], matI_IsHermitian⟩

lemma isingZTerm_IsHermitian (n i : ℕ) : IsHermitian (isingZTerm n i) := by
  apply multikron_IsHermitian
  intro m hm
  rcases mem_map_range_ZI n _ m hm with rfl | rfl
  · exact ⟨by norm_num [matZ_dim], matZ_IsHermitian⟩
  · exact ⟨by norm_num [matI_dim], matI_IsHermitian⟩

lemma isingXTerm_IsHermitian (n i : ℕ) : IsHermitian (isingXTerm n i) := by
  apply multikron_IsHermitian
  intro m hm
  rcases mem_map_range_XI n _ m hm with rfl | rfl
  · exact ⟨by norm_num [matX_dim], matX_IsHermitian⟩
  · exact ⟨by norm_num [matI_dim], matI_IsHermitian⟩

/-- The code's reference summand coincides with the spec's: for `j` ranging
over `range(n)`, the guard `i == j % n` is the guard `j == i`. -/
lemma szTerm_eq (n i : ℕ) : szTerm n i = refTermSpec n i := by
  unfold szTerm refTermSpec
  congr 1
  apply List.map_congr_left
  intro j hj
  have hjn : j < n := List.mem_range.mp hj
  exact if_congr (by rw [Nat.mod_eq_of_lt hjn]; exact eq_comm) rfl rfl

/-- The code's field summand coincides with the spec's. -/
lemma isingXTerm_eq (n i : ℕ) : isingXTerm n i = fieldTermSpec n i := by
  unfold isingXTerm fieldTermSpec
  congr 1
  apply List.map_congr_left
  intro j hj
  have hjn : j < n := List.mem_range.mp hj
  exact if_congr (by rw [Nat.mod_eq_of_lt hjn]; exact eq_comm) rfl rfl

/-- `sz_hamiltonian` is literally the spec's reference Hamiltonian. -/
lemma sz_eq_referenceSpec (n : ℕ) : sz_hamiltonian n = referenceSpec n := by
  unfold sz_hamiltonian referenceSpec
  exact congrArg (fun l => matNeg (matSum l))
    (List.map_congr_left (fun i _ => szTerm_eq n i))

/-- The guard of the code's coupling summand `i` agrees, position by
position, with the guard of the spec's coupling summand `(i + n - 1) % n`:
the code's term `i` places Pauli-Z on the ring edge \x7b(i-1) mod n, i\x7d,
which is the spec's edge \x7bk, (k+1) mod n\x7d for `k = (i-1) mod n`. -/
lemma ringCond_iff (n i j : ℕ) (hn : 1 ≤ n) (hi : i < n) (hj : j < n) :
    (i = j % n ∨ i = (j + 1) % n) ↔
      (j = (i + (n - 1)) % n ∨ j = ((i + (n - 1)) % n + 1) % n) := by
  rw [Nat.mod_eq_of_lt hj, shiftA n i hn hi]
  constructor
  · rintro (rfl | h)
    · exact Or.inr rfl
    · subst h
      exact Or.inl (shiftB n j hn hj).symm
  · rintro (h | rfl)
    · subst h
      exact Or.inr (shiftA n i hn hi).symm
    · exact Or.inl rfl

lemma isingZTerm_eq (n i : ℕ) (hn : 1 ≤ n) (hi : i < n) :
    isingZTerm n i = ringTermSpec n ((i + (n - 1)) % n) := by
  unfold isingZTerm ringTermSpec
  congr 1
  apply List.map_congr_left
  intro j hj
  exact if_congr (ringCond_iff n i j hn hi (List.mem_range.mp hj)) rfl rfl

/-- Reindexing the coupling sum along the ring rotation `i ↦ (i + n - 1) % n`:
entrywise, the code's coupling sum equals the spec's. -/
lemma ring_sum_entry (n a b : ℕ) (hn : 1 ≤ n) :
    ∑ i ∈ Finset.range n, (isingZTerm n i).entry a b =
      ∑ k ∈ Finset.range n, (ringTermSpec n k).entry a b := by
  refine Finset.sum_nbij' (fun i => (i + (n - 1)) % n) (fun k => (k + 1) % n)
    ?_ ?_ ?_ ?_ ?_
  · intro i hi
    exact Finset.mem_range.mpr (Nat.mod_lt _ (by omega))
  · intro k hk
    exact Finset.mem_range.mpr (Nat.mod_lt _ (by omega))
  · intro i hi
    exact shiftA n i hn (Finset.mem_range.mp hi)
  · intro k hk
    exact shiftB n k hn (Finset.mem_range.mp hk)
  · intro i hi
    rw [isingZTerm_eq n i hn (Finset.mem_range.mp hi)]

end HamiltonianLemmas

section SumLemmas

lemma map_range_ne_nil (n : ℕ) (f : ℕ → Mat) (hn : 1 ≤ n) :
    (List.range n).map f ≠ [] := by
  apply List.length_pos.mp
  simpa using hn

lemma matSum_map_range_dim (n : ℕ) (T : ℕ → Mat) (d : ℕ) (hn : 1 ≤ n)
    (h : ∀ i < n, (T i).dim = d) :
    (matSum ((List.range n).map T)).dim = d := by
  apply matSum_dim_of _ d (map_range_ne_nil n T hn)
  intro A hA
  obtain ⟨i, hi, rfl⟩ := List.mem_map.mp hA
  exact h i (List.mem_range.mp hi)

lemma matSum_map_range_IsHermitian (n : ℕ) (T : ℕ → Mat) (d : ℕ) (hn : 1 ≤ n)
    (hdim : ∀ i < n, (T i).dim = d) (hherm : ∀ i < n, IsHermitian (T i)) :
    IsHermitian (matSum ((List.range n).map T)) := by
  intro i hi j hj
  rw [matSum_map_range_dim n T d hn hdim] at hi hj
  rw [matSum_map_range_entry n T i j hn, matSum_map_range_entry n T j i hn]
  apply Finset.sum_congr rfl
  intro k hk
  have hkn := Finset.mem_range.mp hk
  exact hherm k hkn i (by rw [hdim k hkn]; exact hi) j (by rw [hdim k hkn]; exact hj)

lemma sz_dim (n : ℕ) (hn : 1 ≤ n) : (sz_hamiltonian n).dim = 2 ^ n :=
  matSum_map_range_dim n (szTerm n) (2 ^ n) hn (fun i _ => szTerm_dim n i)

lemma ising_dim (n : ℕ) (lamb : ℚ) (hn : 1 ≤ n) : (ising n lamb).dim = 2 ^ n :=
  matSum_map_range_dim n (isingZTerm n) (2 ^ n) hn (fun i _ => isingZTerm_dim n i)

lemma ringCouplingSpec_dim (n : ℕ) (hn : 1 ≤ n) : (ringCouplingSpec n).dim = 2 ^ n :=
  matSum_map_range_dim n (ringTermSpec n) (2 ^ n) hn (fun i _ => ringTermSpec_dim n i)

lemma isingSpec_dim (n : ℕ) (lamb : ℚ) (hn : 1 ≤ n) : (isingSpec n lamb).dim = 2 ^ n :=
  ringCouplingSpec_dim n hn

/-- The code's field sum is literally the spec's field sum. -/
lemma fieldSum_eq (n : ℕ) :
    matSum ((List.range n).map (isingXTerm n)) = fieldSpec n :=
  congrArg matSum (List.map_congr_left (fun i _ => isingXTerm_eq n i))

end SumLemmas

/-- Claim C10: applied to an empty sequence of matrices, `multikron` does
not error: `h = 1` is never updated and the function returns the 1×1
scalar `1`. -/
theorem multikron_nil_returns_scalar_one :
    (multikron []).dim = 1 ∧ (multikron []).entry 0 0 = 1 :=
  ⟨rfl, rfl⟩

lemma kron_one_left_matEq (P C : Mat) (hC : 0 < C.dim) :
    MatEq (kron P C) (kron (kron matOne P) C) := by
  constructor
  · show P.dim * C.dim = matOne.dim * P.dim * C.dim
    show P.dim * C.dim = 1 * P.dim * C.dim
    ring
  · intro i hi j hj
    have hi2 : i < P.dim * C.dim := hi
    have hj2 : j < P.dim * C.dim := hj
    have hdi : i / C.dim < P.dim := (Nat.div_lt_iff_lt_mul hC).mpr hi2
    have hdj : j / C.dim < P.dim := (Nat.div_lt_iff_lt_mul hC).mpr hj2
    show P.entry (i / C.dim) (j / C.dim) * C.entry (i % C.dim) (j % C.dim) =
      matOne.entry (i / C.dim / P.dim) (j / C.dim / P.dim) *
        P.entry (i / C.dim % P.dim) (j / C.dim % P.dim) *
        C.entry (i % C.dim) (j % C.dim)
    rw [Nat.mod_eq_of_lt hdi, Nat.mod_eq_of_lt hdj]
    show _ = 1 * P.entry (i / C.dim) (j / C.dim) * C.entry (i % C.dim) (j % C.dim)
    ring

/-- Claim C8: `multikron` returns the left-to-right Kronecker product of its
inputs — its dimension is the product of the input dimensions, and on
single-qubit (2×2) matrices grouping the first two factors first gives the
same operator: `multikron [A, B, C]` equals
`multikron [multikron [A, B], C]` elementwise. -/
theorem multikron_dim_and_assoc :
    (∀ ms : List Mat, (multikron ms).dim = (ms.map Mat.dim).prod) ∧
    (∀ A B C : Mat, A.dim = 2 → B.dim = 2 → C.dim = 2 →
      MatEq (multikron [A, B, C]) (multikron [multikron [A, B], C])) := by
  refine ⟨multikron_dim, ?_⟩
  intro A B C _ _ hC
  exact kron_one_left_matEq (kron (kron matOne A) B) C (by rw [hC]; norm_num)

/-- Witness for C8 at the concrete single-qubit matrices `X, X, X`. -/
theorem multikron_dim_and_assoc_witness :
    MatEq (multikron [matX, matX, matX]) (multikron [multikron [matX, matX], matX]) :=
  multikron_dim_and_assoc.2 matX matX matX rfl rfl rfl

/-- Claim C2: `sz_hamiltonian(n)` is the negative sum over qubit positions
`i` of the tensor product placing Pauli-Z at position `i` and identity
elsewhere, and its minimum eigenvalue is exactly `-n`, achieved by the
all-zero computational basis state.  The operator is diagonal (a real
combination of tensor products of diagonal matrices), so its eigenvalues
are exactly its diagonal entries: the theorem states diagonality, that the
entry at the all-zero basis index `0` is `-n`, and that every diagonal
entry is at least `-n`. -/
theorem sz_hamiltonian_ground_state (n : ℕ) (hn : 1 ≤ n) :
    MatEq (sz_hamiltonian n) (referenceSpec n) ∧
    (sz_hamiltonian n).dim = 2 ^ n ∧
    IsDiag (sz_hamiltonian n) ∧
    (sz_hamiltonian n).entry 0 0 = -(n : ℚ) ∧
    ∀ k < 2 ^ n, -(n : ℚ) ≤ (sz_hamiltonian n).entry k k := by
  have hentry : ∀ i j : ℕ, (sz_hamiltonian n).entry i j =
      -(∑ k ∈ Finset.range n, (szTerm n k).entry i j) := by
    intro i j
    show -((matSum ((List.range n).map (szTerm n))).entry i j) = _
    rw [matSum_map_range_entry n (szTerm n) i j hn]
  refine ⟨MatEq_of_eq _ _ (sz_eq_referenceSpec n), sz_dim n hn, ?_, ?_, ?_⟩
  · intro i hi j hj hij
    rw [sz_dim n hn] at hi hj
    rw [hentry i j, Finset.sum_eq_zero, neg_zero]
    intro k _
    exact szTerm_IsDiag n k i (by rw [szTerm_dim]; exact hi) j
      (by rw [szTerm_dim]; exact hj) hij
  · rw [hentry 0 0,
      Finset.sum_congr rfl (fun k _ => szTerm_entry00 n k)]
    simp
  · intro k hk
    rw [hentry k k]
    have hb : ∑ i ∈ Finset.range n, (szTerm n i).entry k k ≤ (n : ℚ) := by
      calc ∑ i ∈ Finset.range n, (szTerm n i).entry k k
          ≤ ∑ _i ∈ Finset.range n, (1 : ℚ) := by
            apply Finset.sum_le_sum
            intro i _
            rcases szTerm_DiagPM n i k (by rw [szTerm_dim]; exact hk) with h | h
            · rw [h]
            · rw [h]; norm_num
        _ = (n : ℚ) := by simp
    linarith

/-- Witness for C2 at `n = 1`. -/
theorem sz_hamiltonian_ground_state_witness :
    (1 ≤ 1) ∧
    (MatEq (sz_hamiltonian 1) (referenceSpec 1) ∧
      (sz_hamiltonian 1).dim = 2 ^ 1 ∧
      IsDiag (sz_hamiltonian 1) ∧
      (sz_hamiltonian 1).entry 0 0 = -((1 : ℕ) : ℚ) ∧
      ∀ k < 2 ^ 1, -((1 : ℕ) : ℚ) ≤ (sz_hamiltonian 1).entry k k) :=
  ⟨by decide, sz_hamiltonian_ground_state 1 (by decide)⟩

/-- Claim C1: `ising(n, lambda)` equals the spec's transverse-field Ising
operator on a ring — the sum over `i` of Pauli-Z placed at positions `i`
and `(i+1) mod n`, plus `lambda` times the sum over `i` of Pauli-X placed
at position `i` — and at `lambda = 0` it reduces to the pure ring-coupling
term.  (The code enumerates the ring edges as \x7b(j-1) mod n, j\x7d rather
than \x7bj, (j+1) mod n\x7d; the two enumerations are the same family of
edges, reindexed by the ring rotation `i ↦ (i + n - 1) % n`.) -/
theorem ising_matches_spec (n : ℕ) (lamb : ℚ) (hn : 1 ≤ n) :
    MatEq (ising n lamb) (isingSpec n lamb) ∧
    MatEq (ising n 0) (ringCouplingSpec n) := by
  have hZ : ∀ i j : ℕ,
      (matSum ((List.range n).map (isingZTerm n))).entry i j =
        (ringCouplingSpec n).entry i j := by
    intro i j
    unfold ringCouplingSpec
    rw [matSum_map_range_entry n _ i j hn, matSum_map_range_entry n _ i j hn]
    exact ring_sum_entry n i j hn
  constructor
  · constructor
    · rw [ising_dim n lamb hn, isingSpec_dim n lamb hn]
    · intro i _ j _
      show (matSum ((List.range n).map (isingZTerm n))).entry i j +
          lamb * (matSum ((List.range n).map (isingXTerm n))).entry i j =
        (ringCouplingSpec n).entry i j + lamb * (fieldSpec n).entry i j
      rw [hZ i j, fieldSum_eq n]
  · constructor
    · rw [ising_dim n 0 hn, ringCouplingSpec_dim n hn]
    · intro i _ j _
      show (matSum ((List.range n).map (isingZTerm n))).entry i j +
          0 * (matSum ((List.range n).map (isingXTerm n))).entry i j =
        (ringCouplingSpec n).entry i j
      rw [hZ i j]
      ring

/-- Witness for C1 at `n = 1`, `lambda = 1`. -/
theorem ising_matches_spec_witness :
    (1 ≤ 1) ∧
    (MatEq (ising 1 1) (isingSpec 1 1) ∧ MatEq (ising 1 0) (ringCouplingSpec 1)) :=
  ⟨by decide, ising_matches_spec 1 1 (by decide)⟩

/-- Claim C4: the interpolated operator `(1-s)*H0 + s*H1` equals `H0`
elementwise at `s = 0` and `H1` elementwise at `s = 1`, for the reference
and problem Hamiltonians built for the same qubit count.  (`interpH` builds
a fresh operator from its operands; nothing is mutated in this purely
functional model, matching the source, where `(1-s)*easy + s*problem`
allocates a new array.) -/
theorem interpolation_boundary (n : ℕ) (lamb : ℚ) (hn : 1 ≤ n) :
    MatEq (interpH (sz_hamiltonian n) (ising n lamb) 0) (sz_hamiltonian n) ∧
    MatEq (interpH (sz_hamiltonian n) (ising n lamb) 1) (ising n lamb) := by
  constructor
  · refine ⟨rfl, ?_⟩
    intro i _ j _
    show (1 - 0) * (sz_hamiltonian n).entry i j +
      0 * (ising n lamb).entry i j = (sz_hamiltonian n).entry i j
    ring
  · constructor
    · show (sz_hamiltonian n).dim = (ising n lamb).dim
      rw [sz_dim n hn, ising_dim n lamb hn]
    · intro i _ j _
      show (1 - 1) * (sz_hamiltonian n).entry i j +
        1 * (ising n lamb).entry i j = (ising n lamb).entry i j
      ring

/-- Witness for C4 at `n = 1`, `lambda = 1`. -/
theorem interpolation_boundary_witness :
    (1 ≤ 1) ∧
    (MatEq (interpH (sz_hamiltonian 1) (ising 1 1) 0) (sz_hamiltonian 1) ∧
      MatEq (interpH (sz_hamiltonian 1) (ising 1 1) 1) (ising 1 1)) :=
  ⟨by decide, interpolation_boundary 1 1 (by decide)⟩

section HermitianClaims

lemma IsHermitian_matNeg (A : Mat) (h : IsHermitian A) : IsHermitian (matNeg A) := by
  intro i hi j hj
  show -(A.entry i j) = -(A.entry j i)
  rw [h i hi j hj]

lemma IsHermitian_matSMul (c : ℚ) (A : Mat) (h : IsHermitian A) :
    IsHermitian (matSMul c A) := by
  intro i hi j hj
  show c * A.entry i j = c * A.entry j i
  rw [h i hi j hj]

lemma IsHermitian_matAdd (A B : Mat) (hd : B.dim = A.dim)
    (hA : IsHermitian A) (hB : IsHermitian B) : IsHermitian (matAdd A B) := by
  intro i hi j hj
  show A.entry i j + B.entry i j = A.entry j i + B.entry j i
  rw [hA i hi j hj, hB i (by rw [hd]; exact hi) j (by rw [hd]; exact hj)]

lemma sz_IsHermitian (n : ℕ) (hn : 1 ≤ n) : IsHermitian (sz_hamiltonian n) :=
  IsHermitian_matNeg _ (matSum_map_range_IsHermitian n (szTerm n) (2 ^ n) hn
    (fun i _ => szTerm_dim n i) (fun i _ => szTerm_IsHermitian n i))

lemma ising_IsHermitian (n : ℕ) (lamb : ℚ) (hn : 1 ≤ n) :
    IsHermitian (ising n lamb) := by
  apply IsHermitian_matAdd
  · show (matSum ((List.range n).map (isingXTerm n))).dim =
      (matSum ((List.range n).map (isingZTerm n))).dim
    rw [matSum_map_range_dim n _ (2 ^ n) hn (fun i _ => isingXTerm_dim n i),
      matSum_map_range_dim n _ (2 ^ n) hn (fun i _ => isingZTerm_dim n i)]
  · exact matSum_map_range_IsHermitian n (isingZTerm n) (2 ^ n) hn
      (fun i _ => isingZTerm_dim n i) (fun i _ => isingZTerm_IsHermitian n i)
  · exact IsHermitian_matSMul lamb _ (matSum_map_range_IsHermitian n
      (isingXTerm n) (2 ^ n) hn (fun i _ => isingXTerm_dim n i)
      (fun i _ => isingXTerm_IsHermitian n i))

end HermitianClaims

/-- Claim C9: every operator the core produces is Hermitian — the reference
Hamiltonian, the problem Hamiltonian for any real `lambda`, and the
interpolation `(1-s)*reference + s*problem` for any `s ∈ [0,1]`.  All
entries are real, so equality with the conjugate transpose is symmetry. -/
theorem core_operators_hermitian (n : ℕ) (lamb s : ℚ) (hn : 1 ≤ n)
    (_hs0 : 0 ≤ s) (_hs1 : s ≤ 1) :
    IsHermitian (sz_hamiltonian n) ∧ IsHermitian (ising n lamb) ∧
    IsHermitian (interpH (sz_hamiltonian n) (ising n lamb) s) := by
  refine ⟨sz_IsHermitian n hn, ising_IsHermitian n lamb hn, ?_⟩
  apply IsHermitian_matAdd
  · show (ising n lamb).dim = (sz_hamiltonian n).dim
    rw [ising_dim n lamb hn, sz_dim n hn]
  · exact IsHermitian_matSMul _ _ (sz_IsHermitian n hn)
  · exact IsHermitian_matSMul _ _ (ising_IsHermitian n lamb hn)

/-- Witness for C9 at `n = 1`, `lambda = 1`, `s = 1`. -/
theorem core_operators_hermitian_witness :
    ((1 : ℕ) ≤ 1 ∧ (0 : ℚ) ≤ 1 ∧ (1 : ℚ) ≤ 1) ∧
    (IsHermitian (sz_hamiltonian 1) ∧ IsHermitian (ising 1 1) ∧
      IsHermitian (interpH (sz_hamiltonian 1) (ising 1 1) 1)) :=
  ⟨⟨by decide, by norm_num, by norm_num⟩,
    core_operators_hermitian 1 1 1 (by decide) (by norm_num) (by norm_num)⟩

section SchedulerClaims

/-- A concrete minimizer used only to instantiate the scheduler theorems. -/
def constMin : Minimizer := fun _ p => (0, p)

/-- Claim C3: with `T_max = 0` (division by zero at `s = t/T_max`) or
`T_max` negative (the loop body never runs and `return energy, params`
reads unbound locals), `AAVQE` raises before any minimizer invocation:
the call fails and the minimizer runs zero times. -/
theorem aavqe_rejects_nonpositive_Tmax (f : Minimizer) (H0 H1 : Mat)
    (p0 : Params) (T : ℤ) (hT : T ≤ 0) :
    exceptOk (AAVQEgo f H0 H1 T p0).1 = false ∧ (AAVQEgo f H0 H1 T p0).2 = 0 := by
  rcases lt_or_eq_of_le hT with hlt | heq
  · have h0 : (T + 1).toNat = 0 := by omega
    unfold AAVQEgo
    rw [h0]
    exact ⟨rfl, rfl⟩
  · subst heq
    unfold AAVQEgo
    exact ⟨rfl, rfl⟩

/-- Witness for C3 at `T_max = 0`. -/
theorem aavqe_rejects_nonpositive_Tmax_witness :
    ((0 : ℤ) ≤ 0) ∧
    (exceptOk (AAVQEgo constMin matOne matOne 0 []).1 = false ∧
      (AAVQEgo constMin matOne matOne 0 []).2 = 0) :=
  ⟨by decide, aavqe_rejects_nonpositive_Tmax constMin matOne matOne [] 0 (by decide)⟩

lemma aavqe_fold (f : Minimizer) (H0 H1 : Mat) (T : ℤ) (p0 : Params)
    (hT : 1 ≤ T) :
    ∀ k : ℕ, 1 ≤ k →
      (List.range k).foldl (aavqeBody f H0 H1 T p0) (Except.ok none, 0) =
        (Except.ok (some (stepOut f H0 H1 T p0 (k - 1))), k) := by
  intro k hk
  induction k with
  | zero => omega
  | succ m ih =>
    rw [List.range_succ, List.foldl_append, List.foldl_cons, List.foldl_nil]
    by_cases hm : 1 ≤ m
    · rw [ih hm]
      obtain ⟨m', rfl⟩ : ∃ m', m = m' + 1 := ⟨m - 1, by omega⟩
      show (if T = 0 then (Except.error PyErr.zeroDivision, m' + 1)
          else (Except.ok (some (f (interpH H0 H1 (((m' + 1 : ℕ) : ℚ) / (T : ℚ)))
            (stepOut f H0 H1 T p0 (m' + 1 - 1)).2)), m' + 1 + 1)) =
        (Except.ok (some (stepOut f H0 H1 T p0 (m' + 1 + 1 - 1))), m' + 1 + 1)
      rw [if_neg (by omega : ¬ T = 0), Nat.cast_succ]
      rfl
    · have hm0 : m = 0 := by omega
      subst hm0
      show (if T = 0 then (Except.error PyErr.zeroDivision, 0)
          else (Except.ok (some (f (interpH H0 H1 (((0 : ℕ) : ℚ) / (T : ℚ))) p0)),
            0 + 1)) =
        (Except.ok (some (stepOut f H0 H1 T p0 0)), 1)
      rw [if_neg (by omega : ¬ T = 0), Nat.cast_zero]
      rfl

/-- Claim C5: for `T_max ≥ 1`, the scheduler implements exactly the
warm-start chain `stepOut`: the parameter vector passed into the
minimization call of step `t+1` is exactly the vector returned by the call
of step `t` (no mutation or re-randomization between steps), the scheduler
returns the energy/parameter pair of the final step `t = T_max`, and it
invokes the minimizer exactly `T_max + 1` times. -/
theorem aavqe_warm_start (f : Minimizer) (H0 H1 : Mat) (p0 : Params)
    (T : ℤ) (hT : 1 ≤ T) :
    (∀ t : ℕ, paramsIn f H0 H1 T p0 (t + 1) = (stepOut f H0 H1 T p0 t).2) ∧
    (AAVQEgo f H0 H1 T p0).1 = Except.ok (stepOut f H0 H1 T p0 T.toNat) ∧
    (AAVQEgo f H0 H1 T p0).2 = T.toNat + 1 := by
  refine ⟨fun t => rfl, ?_, ?_⟩
  · have hk : (T + 1).toNat = T.toNat + 1 := by omega
    unfold AAVQEgo
    rw [hk, aavqe_fold f H0 H1 T p0 hT (T.toNat + 1) (by omega)]
    rfl
  · have hk : (T + 1).toNat = T.toNat + 1 := by omega
    unfold AAVQEgo
    rw [hk, aavqe_fold f H0 H1 T p0 hT (T.toNat + 1) (by omega)]

/-- Witness for C5 at `T_max = 1` with a concrete minimizer. -/
theorem aavqe_warm_start_witness :
    ((1 : ℤ) ≤ 1) ∧
    ((∀ t : ℕ, paramsIn constMin matOne matOne 1 [] (t + 1) =
        (stepOut constMin matOne matOne 1 [] t).2) ∧
      (AAVQEgo constMin matOne matOne 1 []).1 =
        Except.ok (stepOut constMin matOne matOne 1 [] (1 : ℤ).toNat) ∧
      (AAVQEgo constMin matOne matOne 1 []).2 = (1 : ℤ).toNat + 1) :=
  ⟨by decide, aavqe_warm_start constMin matOne matOne [] 1 (by decide)⟩

end SchedulerClaims

section CircuitClaims

lemma circuitParams_append (a b : List Gate) :
    circuitParams (a ++ b) = circuitParams a + circuitParams b := by
  simp [circuitParams]

lemma oddCZ_params (n : ℕ) : circuitParams (oddCZ n) = 0 := by
  unfold circuitParams oddCZ
  rw [List.map_map]
  apply List.sum_eq_zero
  intro x hx
  obtain ⟨i, _, rfl⟩ := List.mem_map.mp hx
  rfl

lemma layerBlock_params (n : ℕ) : circuitParams (layerBlock n) = 2 * n := by
  unfold layerBlock
  show circuitParams (Gate.variationalLayer (List.range n) (evenPairs n) n n ::
    (oddCZ n ++ [Gate.cz 0 (n - 1)])) = 2 * n
  unfold circuitParams
  rw [List.map_cons, List.sum_cons]
  show gateParams (Gate.variationalLayer (List.range n) (evenPairs n) n n) +
    circuitParams (oddCZ n ++ [Gate.cz 0 (n - 1)]) = 2 * n
  rw [circuitParams_append, oddCZ_params]
  show n + n + (0 + circuitParams [Gate.cz 0 (n - 1)]) = 2 * n
  show n + n + (0 + (0 + 0)) = 2 * n
  ring

lemma buildLayers_params (n : ℕ) : ∀ L : ℕ,
    circuitParams (buildLayers n L) = 2 * n * L := by
  intro L
  induction L with
  | zero => rfl
  | succ m ih =>
    show circuitParams (buildLayers n m ++ layerBlock n) = 2 * n * (m + 1)
    rw [circuitParams_append, ih, layerBlock_params]
    ring

lemma closing_params (n : ℕ) :
    circuitParams ((List.range n).map Gate.ry) = n := by
  unfold circuitParams
  rw [List.map_map]
  have : (List.range n).map (gateParams ∘ Gate.ry) = (List.range n).map (fun _ => 1) :=
    List.map_congr_left (fun i _ => rfl)
  rw [this, List.map_const', List.sum_replicate, List.length_range, smul_eq_mul,
    mul_one]

/-- Claim C6: the ansatz circuit has exactly `2·n·L + n` trainable rotation
parameter slots — `2n` per variational layer plus `n` in the closing
rotation round — matching the length `nparams = 2*nqubits*layers + nqubits`
of the initial parameter vector the driver supplies. -/
theorem ansatz_param_count (n L : ℕ) (_hn : 1 ≤ n) (_hL : 1 ≤ L) :
    circuitParams (buildCircuit n L) = mainNParams n L ∧
    mainNParams n L = 2 * n * L + n := by
  refine ⟨?_, rfl⟩
  unfold buildCircuit mainNParams
  rw [circuitParams_append, buildLayers_params, closing_params]

/-- Witness for C6 at `n = 1`, `L = 1`. -/
theorem ansatz_param_count_witness :
    ((1 ≤ 1) ∧ (1 ≤ 1)) ∧
    (circuitParams (buildCircuit 1 1) = mainNParams 1 1 ∧
      mainNParams 1 1 = 2 * 1 * 1 + 1) :=
  ⟨⟨by decide, by decide⟩, ansatz_param_count 1 1 (by decide) (by decide)⟩

lemma range2_mem (start stop q : ℕ) (h : q ∈ range2 start stop) :
    start ≤ q ∧ q < stop := by
  obtain ⟨k, hk, rfl⟩ := List.mem_map.mp h
  have hk2 := List.mem_range.mp hk
  omega

lemma layerBlock_qubits (n : ℕ) (hn : 1 ≤ n) :
    ∀ g ∈ layerBlock n, ∀ q ∈ gateQubits g, q < n := by
  intro g hg
  unfold layerBlock at hg
  rw [List.mem_cons] at hg
  rcases hg with rfl | hg
  · intro q hq
    simp only [gateQubits, List.mem_append] at hq
    rcases hq with (hq | hq) | hq
    · exact List.mem_range.mp hq
    · obtain ⟨p, hp, rfl⟩ := List.mem_map.mp hq
      obtain ⟨i, hi, rfl⟩ := List.mem_map.mp hp
      have := range2_mem 0 (n - 1) i hi
      show i < n
      omega
    · obtain ⟨p, hp, rfl⟩ := List.mem_map.mp hq
      obtain ⟨i, hi, rfl⟩ := List.mem_map.mp hp
      have := range2_mem 0 (n - 1) i hi
      show i + 1 < n
      omega
  · rw [List.mem_append] at hg
    rcases hg with hg | hg
    · obtain ⟨i, hi, rfl⟩ := List.mem_map.mp hg
      have := range2_mem 1 (n - 2) i hi
      intro q hq
      simp only [gateQubits, List.mem_cons, List.mem_singleton] at hq
      rcases hq with rfl | hq
      · omega
      · rcases hq with rfl | hq
        · omega
        · simp at hq
    · rw [List.mem_singleton] at hg
      subst hg
      intro q hq
      simp only [gateQubits, List.mem_cons, List.mem_singleton] at hq
      rcases hq with rfl | hq
      · omega
      · rcases hq with rfl | hq
        · omega
        · simp at hq

lemma buildLayers_qubits (n : ℕ) (hn : 1 ≤ n) (L : ℕ) :
    ∀ g ∈ buildLayers n L, ∀ q ∈ gateQubits g, q < n := by
  induction L with
  | zero => intro g hg; simp [buildLayers] at hg
  | succ m ih =>
    intro g hg
    unfold buildLayers at hg
    rw [List.mem_append] at hg
    rcases hg with hg | hg
    · exact ih g hg
    · exact layerBlock_qubits n hn g hg

lemma buildCircuit_qubits (n L : ℕ) (hn : 1 ≤ n) :
    ∀ g ∈ buildCircuit n L, ∀ q ∈ gateQubits g, q < n := by
  intro g hg
  unfold buildCircuit at hg
  rw [List.mem_append] at hg
  rcases hg with hg | hg
  · exact buildLayers_qubits n hn L g hg
  · obtain ⟨q0, hq0, rfl⟩ := List.mem_map.mp hg
    intro q hq
    simp only [gateQubits, List.mem_singleton] at hq
    subst hq
    exact List.mem_range.mp hq0

lemma oddCZ_small (n : ℕ) (h : n < 4) : oddCZ n = [] := by
  interval_cases n <;> rfl

/-- Claim C7: for every `n ≥ 1` and `L ≥ 1` — in particular for qubit
counts below 4 — building the ansatz topology does not error: the builder
is total, every emitted gate touches only qubit indices below `n`, the
ring-closing entangler `CZ(0, n-1)` is always present (degenerating to
`CZ(0, 0)` at `n = 1`), and for `n < 4` the odd-offset pairing range
`range(1, n-2, 2)` is empty, exactly as the half-open integer ranges
naturally produce, with no special-cased correction. -/
theorem ansatz_degenerate_ranges (n L : ℕ) (hn : 1 ≤ n) (hL : 1 ≤ L) :
    (∀ g ∈ buildCircuit n L, ∀ q ∈ gateQubits g, q < n) ∧
    Gate.cz 0 (n - 1) ∈ buildCircuit n L ∧
    (n < 4 → oddCZ n = []) := by
  refine ⟨buildCircuit_qubits n L hn, ?_, oddCZ_small n⟩
  obtain ⟨m, rfl⟩ : ∃ m, L = m + 1 := ⟨L - 1, by omega⟩
  unfold buildCircuit buildLayers
  rw [List.mem_append, List.mem_append]
  left
  right
  unfold layerBlock
  rw [List.mem_cons]
  right
  rw [List.mem_append]
  right
  exact List.mem_singleton.mpr rfl

/-- Witness for C7 at `n = 1`, `L = 1`. -/
theorem ansatz_degenerate_ranges_witness :
    ((1 ≤ 1) ∧ (1 ≤ 1)) ∧
    ((∀ g ∈ buildCircuit 1 1, ∀ q ∈ gateQubits g, q < 1) ∧
      Gate.cz 0 (1 - 1) ∈ buildCircuit 1 1 ∧
      (1 < 4 → oddCZ 1 = [])) :=
  ⟨⟨by decide, by decide⟩, ansatz_degenerate_ranges 1 1 (by decide) (by decide)⟩

end CircuitClaims
